import Mathlib

/-!
Verification of the container-registry-proxy translation layer
(`src/main.go`) against its natural-language specification.

The Go handlers are embedded shallowly:

* `os.Getenv("GITHUB_USERS")` becomes an explicit `config : String`
  parameter of `gitHubUsers`.
* The GitHub client calls `ListPackages` / `PackageGetAllVersions` become
  explicit result parameters of type `Except String _` (the `error` case
  carries the transport-error text that Go formats with `%s`).
* Go nil pointers become `Option`; a nil-pointer dereference (a Go panic)
  is modelled by the `none` result of an `Option`-valued function, so
  `catalog` returns `none` exactly when the Go handler would panic.
* The handler writes an HTTP status and a JSON body; both are returned as
  plain data (`Response`, `TagsResponse`).
-/

namespace ContainerRegistryProxy

/-- Owner object of a GitHub package record (`github.User`): the `Login`
field is a nullable string pointer. -/
structure Owner where
  login : Option String
  deriving Repr, DecidableEq

/-- GitHub package record (`github.Package`) as the Catalog handler reads
it: `Name` is a nullable string pointer and `Owner` is a nullable object
pointer whose `Login` is itself nullable. -/
structure Package where
  name : Option String
  owner : Option Owner
  deriving Repr, DecidableEq

/-- Container metadata of a package version
(`github.PackageMetadata.Container`): the ordered tag list. -/
structure ContainerMetadata where
  tags : List String
  deriving Repr, DecidableEq

/-- Metadata object of a package version (`github.PackageMetadata`): the
`Container` field is nullable. -/
structure PackageMetadata where
  container : Option ContainerMetadata
  deriving Repr, DecidableEq

/-- Package version record (`github.PackageVersion`): the `Metadata`
field is nullable. -/
structure PackageVersion where
  metadata : Option PackageMetadata
  deriving Repr, DecidableEq

/-- Modelled from the spec: the error-code constant `ERROR_UNKNOWN` is
declared outside `src/main.go`; the spec fixes the only emitted code to
the registry vocabulary entry `UNKNOWN`. -/
def ERROR_UNKNOWN : String := "UNKNOWN"

/-- Modelled from the spec: the `apiError` entry of the ErrorEnvelope,
declared outside `src/main.go`; the spec gives it a `code` from the fixed
vocabulary and a `message` (the optional `detail` is never set by this
core and is omitted). -/
structure ApiError where
  code : String
  message : String
  deriving Repr, DecidableEq

/-- Modelled from the spec: `makeError` (used by `TagsList`), declared
outside `src/main.go`; per spec section 4.4 it builds an ErrorEnvelope
with a single entry. -/
def makeError (code message : String) : List ApiError :=
  [⟨code, message⟩]

/-- Body of a Catalog response: either the `{"repositories": [...]}`
object or the ErrorEnvelope `{"errors": [...]}`. Go initialises
`Repositories` to `[]string{}`, so the field is always present in the
JSON (never null); the `repos` constructor with a possibly empty list
models exactly that. -/
inductive CatalogBody where
  | repos (repositories : List String)
  | errs (errors : List ApiError)
  deriving Repr, DecidableEq

/-- HTTP response of the Catalog handler: status code plus JSON body. -/
structure Response where
  status : Nat
  body : CatalogBody
  deriving Repr, DecidableEq

/-- Result of one `ListPackages` call: transport error text, or the
returned package records. -/
abbrev FetchResult := Except String (List Package)

/-- Boolean test used instead of `Except.isOk` to keep the development
self-contained. -/
def isOkResult (r : FetchResult) : Bool :=
  match r with
  | .ok _ => true
  | .error _ => false

/-- Error text carried by a failed fetch (the string Go interpolates with
`%s`); dummy `""` on a success, where it is never read. -/
def errText (r : FetchResult) : String :=
  match r with
  | .ok _ => ""
  | .error e => e

/-- Character-level split on a one-character separator, the semantics of
Go's `strings.Split(s, sep)` for a single-character `sep`: one part per
separator-free run, `n+1` parts for `n` separators, and `[[]]` on the
empty input (Go returns `[""]` there). Defined by structural recursion
so the kernel can evaluate it. -/
def splitChar (sep : Char) : List Char → List (List Char)
  | [] => [[]]
  | c :: cs =>
    let rest := splitChar sep cs
    if c = sep then [] :: rest
    else
      match rest with
      | [] => [[c]]
      | r :: rs => (c :: r) :: rs

/-- String comma split: Go's `strings.Split(s, ",")`. -/
def splitCommaS (s : String) : List String :=
  (splitChar ',' s.data).map String.mk

/-- Embeds `GitHubUsers` (`src/main.go` lines 68-77):
`users := strings.Split(os.Getenv("GITHUB_USERS"), ",")`, and when the
variable is non-empty the authenticated identity `""` is prepended. Go's
`strings.Split("", ",")` returns `[""]`. -/
def gitHubUsers (config : String) : List String :=
  let users := splitCommaS config
  if config ≠ "" then "" :: users else users

/-- Key comparison of the Catalog dedup scan (`src/main.go` line 106):
`*tempPack.Name == *pack.Name && *tempPack.Owner.Login == *pack.Owner.Login`.
Both arguments are compared only when all four pointers are non-nil (the
new record was just checked, the stored one was checked before being
appended), so comparing the `Option` values coincides with Go's
dereferenced string comparison. -/
def sameKey (p q : Package) : Bool :=
  (p.name == q.name) && ((p.owner.bind Owner.login) == (q.owner.bind Owner.login))

/-- Embeds the inner loop of a successful fetch (`src/main.go` lines
100-115): for each returned record, skip when `Name` is nil (Go's `||`
short-circuits before touching `Owner`); otherwise dereference
`tempPack.Owner.Login` — a nil `Owner` is a nil-pointer dereference,
modelled as `none` (panic); skip when `Login` is nil; then the linear
dedup scan, appending only unseen `(login, name)` keys. -/
def addPackages (acc : List Package) : List Package → Option (List Package)
  | [] => some acc
  | p :: rest =>
    match p.name with
    | none => addPackages acc rest
    | some _ =>
      match p.owner with
      | none => none
      | some o =>
        match o.login with
        | none => addPackages acc rest
        | some _ =>
          if acc.any (fun q => sameKey p q) then addPackages acc rest
          else addPackages (acc ++ [p]) rest

/-- State accumulated by the Catalog fan-out loop (`src/main.go` lines
88-90): success counter, deduplicated package list, error list. -/
structure CatalogState where
  successes : Nat
  packages : List Package
  errors : List ApiError
  deriving Repr, DecidableEq

/-- Error entry appended for a failed fetch (`src/main.go` line 96):
`apiError{Code: ERROR_UNKNOWN, Message: fmt.Sprintf("ListPackages: %s", err)}`. -/
def mkListPackagesError (e : String) : ApiError :=
  ⟨ERROR_UNKNOWN, "ListPackages: " ++ e⟩

/-- One iteration of the Catalog fan-out loop (`src/main.go` lines
91-118): a failed fetch appends an error entry; a successful fetch
increments `successes` and folds the returned records into `packages`
(propagating the panic of `addPackages` as `none`). -/
def catalogStep (s : CatalogState) (r : FetchResult) : Option CatalogState :=
  match r with
  | .error e => some { s with errors := s.errors ++ [mkListPackagesError e] }
  | .ok pkgs =>
    match addPackages s.packages pkgs with
    | none => none
    | some ps => some { s with successes := s.successes + 1, packages := ps }

/-- Catalog fan-out loop over the per-identity fetch results, in identity
order, threading the panic case. -/
def catalogLoop (s : CatalogState) : List FetchResult → Option CatalogState
  | [] => some s
  | r :: rs =>
    match catalogStep s r with
    | none => none
    | some s' => catalogLoop s' rs

/-- Embeds the response-building loop (`src/main.go` lines 139-148):
skip when `Name` is nil; dereferencing `pack.Owner.Login` with a nil
`Owner` is a panic (`none`); skip when `Login` is nil; otherwise append
`fmt.Sprintf("%s/%s", *pack.Owner.Login, *pack.Name)`. -/
def buildRepos (acc : List String) : List Package → Option (List String)
  | [] => some acc
  | p :: rest =>
    match p.name with
    | none => buildRepos acc rest
    | some n =>
      match p.owner with
      | none => none
      | some o =>
        match o.login with
        | none => buildRepos acc rest
        | some l => buildRepos (acc ++ [l ++ "/" ++ n]) rest

/-- Embeds the `Catalog` handler (`src/main.go` lines 80-150) given the
per-identity fetch results in identity order: run the fan-out loop; when
`successes == 0` answer 400 with the ErrorEnvelope; otherwise build the
repository list (starting from Go's `Repositories: []string{}`) and
answer 200. `none` models a Go panic (no response is written). -/
def catalog (results : List FetchResult) : Option Response :=
  match catalogLoop ⟨0, [], []⟩ results with
  | none => none
  | some s =>
    if s.successes = 0 then some ⟨400, .errs s.errors⟩
    else
      match buildRepos [] s.packages with
      | none => none
      | some rs => some ⟨200, .repos rs⟩

/-- Full Catalog request path: `GitHubUsers()` determines the identity
sequence and `ListPackages` is called once per identity in order
(`src/main.go` lines 82, 91-93); `fetch` maps each identity to its call
result. -/
def catalogHandler (config : String) (fetch : String → FetchResult) : Option Response :=
  catalog ((gitHubUsers config).map fetch)

/-- Body of a TagsList response: either the `{"name": ..., "tags": [...]}`
object or the ErrorEnvelope. -/
inductive TagsBody where
  | tags (name : String) (tags : List String)
  | errs (errors : List ApiError)
  deriving Repr, DecidableEq

/-- HTTP response of the TagsList handler. -/
structure TagsResponse where
  status : Nat
  body : TagsBody
  deriving Repr, DecidableEq

/-- Tag-collection loop of `TagsList` (`src/main.go` lines 175-184): for
each version in order, skip when `Metadata` or `Metadata.Container` is
nil (short-circuit, so no panic is possible here), else append all of
`Metadata.Container.Tags`. -/
def collectTags (acc : List String) : List PackageVersion → List String
  | [] => acc
  | v :: rest =>
    match v.metadata with
    | none => collectTags acc rest
    | some m =>
      match m.container with
      | none => collectTags acc rest
      | some c => collectTags (acc ++ c.tags) rest

/-- Embeds the `TagsList` handler (`src/main.go` lines 153-186) given the
path parameters and the `PackageGetAllVersions` result: on error, 400
with `makeError(ERROR_UNKNOWN, "PackageGetAllVersions: <err>")`; on
success, 200 with `name = fmt.Sprintf("%s/%s", owner, name)` and the
collected tags (starting from Go's `Tags: []string{}`). -/
def tagsList (owner pname : String) (result : Except String (List PackageVersion)) :
    TagsResponse :=
  match result with
  | .error e => ⟨400, .errs (makeError ERROR_UNKNOWN ("PackageGetAllVersions: " ++ e))⟩
  | .ok versions => ⟨200, .tags (owner ++ "/" ++ pname) (collectTags [] versions)⟩

/-- Route pattern registered on the router (`src/main.go` lines 55-56):
the exact path `/v2/_catalog`, or `/v2/{owner}/{name}/tags/list` with the
two path parameters bound. -/
inductive RoutePattern where
  | catalogRoute
  | tagsRoute (owner pname : String)
  deriving Repr, DecidableEq

/-- Dispatch target chosen by the router for one request. -/
inductive Handler where
  | catalogH
  | tagsH (owner pname : String)
  | upstream
  | methodNotAllowed
  deriving Repr, DecidableEq

/-- Path matching of the chi v5 route tree for the two registered
patterns: `/v2/_catalog` exactly, and `/v2/{owner}/{name}/tags/list`
where each `{param}` placeholder matches one non-empty path segment. -/
def matchPath (path : String) : Option RoutePattern :=
  if path = "/v2/_catalog" then some .catalogRoute
  else
    match (splitChar '/' path.data).map String.mk with
    | ["", "v2", owner, pname, "tags", "list"] =>
      if owner ≠ "" ∧ pname ≠ "" then some (.tagsRoute owner pname) else none
    | _ => none

/-- Models the router dispatch wired in `NewProxy` (`src/main.go` lines
49-60) through the chi v5 mux it uses: `FindRoute` looks the path up in
the route tree and then selects the handler registered for the method;
a path that matches a registered pattern but has no handler for the
request method dispatches to the mux's `MethodNotAllowedHandler` (which
answers HTTP 405), while a path matching no pattern dispatches to the
`NotFound` handler, which `NewProxy` sets to forward the request to the
upstream reverse proxy. Only `GET` handlers are registered. -/
def route (method path : String) : Handler :=
  match matchPath path with
  | some .catalogRoute => if method = "GET" then .catalogH else .methodNotAllowed
  | some (.tagsRoute owner pname) =>
      if method = "GET" then .tagsH owner pname else .methodNotAllowed
  | none => .upstream

/-- Package lists returned by the successful fetches, in identity
order. -/
def okLists (results : List FetchResult) : List (List Package) :=
  results.filterMap (fun r => match r with | .ok l => some l | .error _ => none)

/-- Transport-error texts of the failed fetches, in identity order. -/
def errorTexts (results : List FetchResult) : List String :=
  results.filterMap (fun r => match r with | .ok _ => none | .error e => some e)

/-- All package records delivered by successful fetches, flattened in
observation order. -/
def okPackages (results : List FetchResult) : List Package :=
  (okLists results).flatten

/-- Folding `addPackages` over the successful package lists in order;
`none` propagates the panic. -/
def addAll (acc : List Package) : List (List Package) → Option (List Package)
  | [] => some acc
  | l :: ls =>
    match addPackages acc l with
    | none => none
    | some acc' => addAll acc' ls

/-- Test that a record carries both components of its identity key: a
present `Name` and a present `Owner.Login`. Every record the Catalog
loop stores satisfies it. -/
def hasKey (p : Package) : Bool :=
  p.name.isSome && (p.owner.bind Owner.login).isSome

/-- Propositional form of the dedup invariant: the stored records have
pairwise different `(login, name)` keys. -/
def distinctKeys (l : List Package) : Prop :=
  l.Pairwise (fun a b => sameKey a b = false)

/-- Repository string a fully-keyed record contributes:
`fmt.Sprintf("%s/%s", *pack.Owner.Login, *pack.Name)`. The defaults are
never reached on records with `hasKey`. -/
def repoString (p : Package) : String :=
  ((p.owner.bind Owner.login).getD "") ++ "/" ++ (p.name.getD "")

/-- Number of occurrences of a character in a character list. -/
def countChar (c : Char) : List Char → Nat
  | [] => 0
  | d :: ds => (if d = c then 1 else 0) + countChar c ds

/-- Well-formedness of one repository string at the character level:
exactly one `'/'`, a non-empty run before it and a non-empty run after
it. -/
def goodRepoChars (cs : List Char) : Bool :=
  (countChar '/' cs == 1)
    && !(cs.takeWhile (fun c => c ≠ '/')).isEmpty
    && !((cs.dropWhile (fun c => c ≠ '/')).tail).isEmpty

/-- String form of `goodRepoChars`: the catalog-entry invariant claimed
by the spec. -/
def goodRepoString (s : String) : Bool :=
  goodRepoChars s.data

/-- Test that a present `Name` is non-empty and slash-free (vacuously
true when `Name` is nil). -/
def cleanName (p : Package) : Bool :=
  match p.name with
  | none => true
  | some n => !n.data.isEmpty && (countChar '/' n.data == 0)

/-- Test that a present `Owner.Login` is non-empty and slash-free
(vacuously true when absent). -/
def cleanLogin (p : Package) : Bool :=
  match p.owner.bind Owner.login with
  | none => true
  | some l => !l.data.isEmpty && (countChar '/' l.data == 0)

/-- Test that a present `Owner.Login` is slash-free (vacuously true when
absent). -/
def slashFreeLogin (p : Package) : Bool :=
  match p.owner.bind Owner.login with
  | none => true
  | some l => countChar '/' l.data == 0

/-- Test that a record cannot make the Catalog loop panic: a present
`Name` implies a present `Owner` object. -/
def ownerSafe (p : Package) : Bool :=
  !p.name.isSome || p.owner.isSome

end ContainerRegistryProxy

namespace ContainerRegistryProxy

theorem okLists_cons_ok (l : List Package) (rs : List FetchResult) :
    okLists (.ok l :: rs) = l :: okLists rs := by
  simp [okLists]

theorem okLists_cons_error (e : String) (rs : List FetchResult) :
    okLists (.error e :: rs) = okLists rs := by
  simp [okLists]

theorem errorTexts_cons_ok (l : List Package) (rs : List FetchResult) :
    errorTexts (.ok l :: rs) = errorTexts rs := by
  simp [errorTexts]

theorem errorTexts_cons_error (e : String) (rs : List FetchResult) :
    errorTexts (.error e :: rs) = e :: errorTexts rs := by
  simp [errorTexts]

theorem catalogLoop_spec (results : List FetchResult) :
    ∀ k P E, catalogLoop ⟨k, P, E⟩ results =
      (addAll P (okLists results)).map
        (fun P' => ⟨k + (okLists results).length, P',
          E ++ (errorTexts results).map mkListPackagesError⟩) := by
  induction results with
  | nil => intro k P E; simp [catalogLoop, okLists, errorTexts, addAll]
  | cons r rs ih =>
    intro k P E
    cases r with
    | error e =>
      simp only [catalogLoop, catalogStep, okLists_cons_error, errorTexts_cons_error, ih,
        List.map_cons, List.append_assoc, List.singleton_append]
    | ok pkgs =>
      simp only [catalogLoop, catalogStep, okLists_cons_ok, errorTexts_cons_ok]
      cases h : addPackages P pkgs with
      | none => simp [addAll, h]
      | some P1 =>
        have hk : k + 1 + (okLists rs).length = k + (okLists rs).length.succ := by omega
        simp only [addAll, h, ih, List.length_cons, hk]

theorem beqComm {α : Type} [BEq α] [LawfulBEq α] (a b : α) : (a == b) = (b == a) := by
  rw [Bool.eq_iff_iff]
  simp only [beq_iff_eq]
  exact eq_comm

theorem sameKey_symm (p q : Package) : sameKey p q = sameKey q p := by
  unfold sameKey
  rw [beqComm p.name q.name,
    beqComm (p.owner.bind Owner.login) (q.owner.bind Owner.login)]

theorem addPackages_mem (pkgs : List Package) :
    ∀ acc acc', addPackages acc pkgs = some acc' →
      ∀ q ∈ acc', q ∈ acc ∨ (q ∈ pkgs ∧ hasKey q = true) := by
  induction pkgs with
  | nil =>
    intro acc acc' h q hq
    simp only [addPackages, Option.some.injEq] at h
    exact Or.inl (h ▸ hq)
  | cons p rest ih =>
    intro acc acc' h q hq
    simp only [addPackages] at h
    split at h
    · rcases ih acc acc' h q hq with h' | ⟨h', hk⟩
      · exact Or.inl h'
      · exact Or.inr ⟨List.mem_cons_of_mem _ h', hk⟩
    · split at h
      · exact absurd h (by simp)
      · next o ho =>
        split at h
        · rcases ih acc acc' h q hq with h' | ⟨h', hk⟩
          · exact Or.inl h'
          · exact Or.inr ⟨List.mem_cons_of_mem _ h', hk⟩
        · next l hl =>
          split at h
          · rcases ih acc acc' h q hq with h' | ⟨h', hk⟩
            · exact Or.inl h'
            · exact Or.inr ⟨List.mem_cons_of_mem _ h', hk⟩
          · rcases ih _ acc' h q hq with h' | ⟨h', hk⟩
            · rcases List.mem_append.1 h' with h'' | h''
              · exact Or.inl h''
              · simp only [List.mem_singleton] at h''
                subst h''
                refine Or.inr ⟨List.mem_cons_self _ _, ?_⟩
                next n hn _ =>
                  simp [hasKey, hn, ho, hl]
            · exact Or.inr ⟨List.mem_cons_of_mem _ h', hk⟩

theorem addPackages_distinct (pkgs : List Package) :
    ∀ acc acc', addPackages acc pkgs = some acc' → distinctKeys acc → distinctKeys acc' := by
  induction pkgs with
  | nil =>
    intro acc acc' h hd
    simp only [addPackages, Option.some.injEq] at h
    exact h ▸ hd
  | cons p rest ih =>
    intro acc acc' h hd
    simp only [addPackages] at h
    split at h
    · exact ih acc acc' h hd
    · split at h
      · exact absurd h (by simp)
      · split at h
        · exact ih acc acc' h hd
        · split at h
          · exact ih acc acc' h hd
          · next hf =>
            refine ih _ acc' h ?_
            have hall : ∀ q ∈ acc, sameKey p q = false := by
              have := eq_false_of_ne_true hf
              intro q hq
              exact Bool.eq_false_iff.2 (List.any_eq_false.1 this q hq)
            show List.Pairwise _ (acc ++ [p])
            rw [List.pairwise_append]
            refine ⟨hd, List.pairwise_singleton _ _, ?_⟩
            intro a ha b hb
            simp only [List.mem_singleton] at hb
            subst hb
            rw [sameKey_symm]
            exact hall a ha

theorem addPackages_total (pkgs : List Package) :
    ∀ acc, (∀ p ∈ pkgs, ownerSafe p = true) → ∃ acc', addPackages acc pkgs = some acc' := by
  induction pkgs with
  | nil => intro acc _; exact ⟨acc, rfl⟩
  | cons p rest ih =>
    intro acc hsafe
    have hp := hsafe p (List.mem_cons_self _ _)
    have hrest : ∀ q ∈ rest, ownerSafe q = true := fun q hq => hsafe q (List.mem_cons_of_mem _ hq)
    obtain ⟨pn, pow⟩ := p
    cases pn with
    | none =>
      rcases ih acc hrest with ⟨acc', h⟩
      exact ⟨acc', by simp [addPackages, h]⟩
    | some n =>
      cases pow with
      | none => exact absurd hp (by simp [ownerSafe])
      | some o =>
        obtain ⟨ol⟩ := o
        cases ol with
        | none =>
          rcases ih acc hrest with ⟨acc', h⟩
          exact ⟨acc', by simp [addPackages, h]⟩
        | some l =>
          by_cases hf : (acc.any fun q => sameKey ⟨some n, some ⟨some l⟩⟩ q) = true
          · rcases ih acc hrest with ⟨acc', h⟩
            exact ⟨acc', by simp [addPackages, hf, h]⟩
          · rcases ih (acc ++ [⟨some n, some ⟨some l⟩⟩]) hrest with ⟨acc', h⟩
            exact ⟨acc', by simp [addPackages, hf, h]⟩

theorem addAll_mem (ls : List (List Package)) :
    ∀ acc acc', addAll acc ls = some acc' →
      ∀ q ∈ acc', q ∈ acc ∨ (q ∈ ls.flatten ∧ hasKey q = true) := by
  induction ls with
  | nil =>
    intro acc acc' h q hq
    simp only [addAll, Option.some.injEq] at h
    exact Or.inl (h ▸ hq)
  | cons l ls ih =>
    intro acc acc' h q hq
    simp only [addAll] at h
    cases hadd : addPackages acc l with
    | none => rw [hadd] at h; exact absurd h (by simp)
    | some acc1 =>
      rw [hadd] at h
      rcases ih acc1 acc' h q hq with h' | ⟨h', hk⟩
      · rcases addPackages_mem l acc acc1 hadd q h' with h'' | ⟨h'', hk⟩
        · exact Or.inl h''
        · exact Or.inr ⟨List.mem_flatten.2 ⟨l, List.mem_cons_self _ _, h''⟩, hk⟩
      · rcases List.mem_flatten.1 h' with ⟨m, hm, hqm⟩
        exact Or.inr ⟨List.mem_flatten.2 ⟨m, List.mem_cons_of_mem _ hm, hqm⟩, hk⟩

theorem addAll_distinct (ls : List (List Package)) :
    ∀ acc acc', addAll acc ls = some acc' → distinctKeys acc → distinctKeys acc' := by
  induction ls with
  | nil =>
    intro acc acc' h hd
    simp only [addAll, Option.some.injEq] at h
    exact h ▸ hd
  | cons l ls ih =>
    intro acc acc' h hd
    simp only [addAll] at h
    cases hadd : addPackages acc l with
    | none => rw [hadd] at h; exact absurd h (by simp)
    | some acc1 =>
      rw [hadd] at h
      exact ih acc1 acc' h (addPackages_distinct l acc acc1 hadd hd)

theorem addAll_total (ls : List (List Package)) :
    ∀ acc, (∀ p ∈ ls.flatten, ownerSafe p = true) → ∃ acc', addAll acc ls = some acc' := by
  induction ls with
  | nil => intro acc _; exact ⟨acc, rfl⟩
  | cons l ls ih =>
    intro acc hsafe
    have hl : ∀ p ∈ l, ownerSafe p = true := fun p hp =>
      hsafe p (List.mem_flatten.2 ⟨l, List.mem_cons_self _ _, hp⟩)
    have hls : ∀ p ∈ ls.flatten, ownerSafe p = true := fun p hp => by
      rcases List.mem_flatten.1 hp with ⟨m, hm, hpm⟩
      exact hsafe p (List.mem_flatten.2 ⟨m, List.mem_cons_of_mem _ hm, hpm⟩)
    rcases addPackages_total l acc hl with ⟨acc1, hadd⟩
    rcases ih acc1 hls with ⟨acc', h⟩
    exact ⟨acc', by simp only [addAll, hadd, h]⟩

theorem buildRepos_eq_map (packs : List Package) :
    ∀ acc, (∀ p ∈ packs, hasKey p = true) →
      buildRepos acc packs = some (acc ++ packs.map repoString) := by
  induction packs with
  | nil => intro acc _; simp [buildRepos]
  | cons p rest ih =>
    intro acc hk
    have hp := hk p (List.mem_cons_self _ _)
    have hrest : ∀ q ∈ rest, hasKey q = true := fun q hq => hk q (List.mem_cons_of_mem _ hq)
    rw [hasKey, Bool.and_eq_true] at hp
    rcases Option.isSome_iff_exists.1 hp.1 with ⟨n, hn⟩
    rcases Option.isSome_iff_exists.1 hp.2 with ⟨l, hbl⟩
    rcases Option.bind_eq_some.1 hbl with ⟨o, ho, hl⟩
    simp only [buildRepos, hn, ho, hl, ih _ hrest, repoString, hbl, Option.some_bind,
      Option.getD_some, Option.some.injEq, List.map_cons, List.append_assoc,
      List.singleton_append]

theorem countChar_append (c : Char) (xs ys : List Char) :
    countChar c (xs ++ ys) = countChar c xs + countChar c ys := by
  induction xs with
  | nil => simp [countChar]
  | cons x xs ih =>
    simp only [List.cons_append, countChar, List.append_eq, ih]
    omega

theorem countChar_eq_zero (c : Char) (xs : List Char) (h : countChar c xs = 0) :
    ∀ x ∈ xs, x ≠ c := by
  induction xs with
  | nil => simp
  | cons x xs ih =>
    simp only [countChar] at h
    intro y hy
    rcases List.mem_cons.1 hy with rfl | hy'
    · intro hx
      rw [if_pos hx] at h
      omega
    · exact ih (by omega) y hy'

theorem takeWhile_append_stop (p : Char → Bool) (xs : List Char) (y : Char) (ys : List Char)
    (hall : ∀ x ∈ xs, p x = true) (hy : p y = false) :
    (xs ++ y :: ys).takeWhile p = xs := by
  induction xs with
  | nil => simp [List.takeWhile_cons, hy]
  | cons x xs ih =>
    have hx := hall x (List.mem_cons_self _ _)
    simp only [List.cons_append, List.takeWhile_cons, hx, if_true]
    rw [ih fun z hz => hall z (List.mem_cons_of_mem _ hz)]

theorem dropWhile_append_stop (p : Char → Bool) (xs : List Char) (y : Char) (ys : List Char)
    (hall : ∀ x ∈ xs, p x = true) (hy : p y = false) :
    (xs ++ y :: ys).dropWhile p = y :: ys := by
  induction xs with
  | nil => simp [List.dropWhile_cons, hy]
  | cons x xs ih =>
    have hx := hall x (List.mem_cons_self _ _)
    simp only [List.cons_append, List.dropWhile_cons, hx, if_true]
    exact ih fun z hz => hall z (List.mem_cons_of_mem _ hz)

theorem goodRepoChars_append (a b : List Char) (ha0 : countChar '/' a = 0)
    (hb0 : countChar '/' b = 0) (ha : a ≠ []) (hb : b ≠ []) :
    goodRepoChars (a ++ '/' :: b) = true := by
  have hall : ∀ x ∈ a, (fun c => decide (c ≠ '/')) x = true := by
    intro x hx
    simpa using countChar_eq_zero '/' a ha0 x hx
  have hslash : (fun c => decide (c ≠ '/')) '/' = false := by simp
  unfold goodRepoChars
  rw [takeWhile_append_stop _ a '/' b hall hslash,
    dropWhile_append_stop _ a '/' b hall hslash]
  simp only [countChar_append, countChar, ha0, hb0, List.tail_cons, Bool.and_eq_true,
    Bool.not_eq_true', List.isEmpty_eq_false, ne_eq]
  refine ⟨⟨by simp, ha⟩, hb⟩

theorem slash_append_inj (a : List Char) :
    ∀ c b d, countChar '/' a = 0 → countChar '/' c = 0 →
      a ++ '/' :: b = c ++ '/' :: d → a = c ∧ b = d := by
  induction a with
  | nil =>
    intro c b d _ hc h
    cases c with
    | nil => simpa using h
    | cons x cs =>
      simp only [List.nil_append, List.cons_append, List.cons.injEq] at h
      exact absurd h.1.symm (countChar_eq_zero '/' (x :: cs) hc x (List.mem_cons_self _ _))
  | cons x as ih =>
    intro c b d ha hc h
    cases c with
    | nil =>
      simp only [List.cons_append, List.nil_append, List.cons.injEq] at h
      exact absurd h.1 (countChar_eq_zero '/' (x :: as) ha x (List.mem_cons_self _ _))
    | cons y cs =>
      simp only [List.cons_append, List.cons.injEq] at h
      have ha' : countChar '/' as = 0 := by
        simp only [countChar] at ha
        omega
      have hc' : countChar '/' cs = 0 := by
        simp only [countChar] at hc
        omega
      rcases ih cs b d ha' hc' h.2 with ⟨h1, h2⟩
      exact ⟨by rw [h.1, h1], h2⟩

theorem string_slash_inj (lp np lq nq : String)
    (hlp : countChar '/' lp.data = 0) (hlq : countChar '/' lq.data = 0)
    (h : lp ++ "/" ++ np = lq ++ "/" ++ nq) : lp = lq ∧ np = nq := by
  have hd := congrArg String.data h
  simp only [String.data_append] at hd
  simp only [List.append_assoc, List.singleton_append] at hd
  rcases slash_append_inj lp.data lq.data np.data nq.data hlp hlq hd with ⟨h1, h2⟩
  exact ⟨String.ext h1, String.ext h2⟩

theorem hasKey_fields (p : Package) (hk : hasKey p = true) :
    ∃ n o l, p.name = some n ∧ p.owner = some o ∧ o.login = some l := by
  rw [hasKey, Bool.and_eq_true] at hk
  rcases Option.isSome_iff_exists.1 hk.1 with ⟨n, hn⟩
  rcases Option.isSome_iff_exists.1 hk.2 with ⟨l, hbl⟩
  rcases Option.bind_eq_some.1 hbl with ⟨o, ho, hl⟩
  exact ⟨n, o, l, hn, ho, hl⟩

theorem repoString_eq (p : Package) (n : String) (o : Owner) (l : String)
    (hn : p.name = some n) (ho : p.owner = some o) (hl : o.login = some l) :
    repoString p = l ++ "/" ++ n := by
  simp [repoString, hn, ho, hl]

theorem repoString_good (p : Package) (hk : hasKey p = true)
    (hcn : cleanName p = true) (hcl : cleanLogin p = true) :
    goodRepoString (repoString p) = true := by
  rcases hasKey_fields p hk with ⟨n, o, l, hn, ho, hl⟩
  rw [repoString_eq p n o l hn ho hl]
  rw [cleanName, hn] at hcn
  rw [cleanLogin, ho] at hcl
  simp only [Option.some_bind, hl, Bool.and_eq_true, Bool.not_eq_true', List.isEmpty_eq_false,
    beq_iff_eq, ne_eq] at hcn hcl
  have hdata : (l ++ "/" ++ n).data = l.data ++ '/' :: n.data := by
    simp only [String.data_append, List.append_assoc, List.singleton_append]
  rw [goodRepoString, hdata]
  exact goodRepoChars_append l.data n.data hcl.2 hcn.2 hcl.1 hcn.1

theorem repoString_ne (p q : Package) (hkp : hasKey p = true) (hkq : hasKey q = true)
    (hslp : slashFreeLogin p = true) (hslq : slashFreeLogin q = true)
    (hne : sameKey p q = false) : repoString p ≠ repoString q := by
  rcases hasKey_fields p hkp with ⟨np, op, lp, hnp, hop, hlp⟩
  rcases hasKey_fields q hkq with ⟨nq, oq, lq, hnq, hoq, hlq⟩
  rw [repoString_eq p np op lp hnp hop hlp, repoString_eq q nq oq lq hnq hoq hlq]
  rw [slashFreeLogin, hop] at hslp
  rw [slashFreeLogin, hoq] at hslq
  simp only [Option.some_bind, hlp, hlq, beq_iff_eq] at hslp hslq
  intro heq
  rcases string_slash_inj lp np lq nq hslp hslq heq with ⟨h1, h2⟩
  rw [sameKey, hnp, hnq, hop, hoq] at hne
  simp only [Option.some_bind, hlp, hlq, h1, h2, beq_self_eq_true, Bool.and_self] at hne
  exact Bool.noConfusion hne

theorem map_repoString_nodup (packs : List Package)
    (hkey : ∀ p ∈ packs, hasKey p = true) (hsl : ∀ p ∈ packs, slashFreeLogin p = true)
    (hd : distinctKeys packs) : (packs.map repoString).Nodup := by
  show List.Pairwise _ _
  rw [List.pairwise_map]
  refine hd.imp_of_mem ?_
  intro a b ha hb hne
  exact repoString_ne a b (hkey a ha) (hkey b hb) (hsl a ha) (hsl b hb) hne

theorem okLists_filter (results : List FetchResult) :
    okLists (results.filter isOkResult) = okLists results := by
  induction results with
  | nil => rfl
  | cons r rs ih =>
    cases r with
    | ok l => simp [List.filter_cons, isOkResult, okLists_cons_ok, ih]
    | error e => simp [List.filter_cons, isOkResult, okLists_cons_error, ih]

theorem errorTexts_all_failed (results : List FetchResult)
    (h : ∀ r ∈ results, isOkResult r = false) :
    okLists results = [] ∧ errorTexts results = results.map errText := by
  induction results with
  | nil => exact ⟨rfl, rfl⟩
  | cons r rs ih =>
    have hr := h r (List.mem_cons_self _ _)
    have hrs := fun x hx => h x (List.mem_cons_of_mem _ hx)
    cases r with
    | ok l => simp [isOkResult] at hr
    | error e =>
      rcases ih hrs with ⟨h1, h2⟩
      exact ⟨by rw [okLists_cons_error, h1], by rw [errorTexts_cons_error, h2, List.map_cons]; rfl⟩

theorem errorTexts_of_no_ok (results : List FetchResult) (h : okLists results = []) :
    (errorTexts results).length = results.length := by
  induction results with
  | nil => rfl
  | cons r rs ih =>
    cases r with
    | ok l => rw [okLists_cons_ok] at h; exact absurd h (by simp)
    | error e =>
      rw [okLists_cons_error] at h
      rw [errorTexts_cons_error, List.length_cons, List.length_cons, ih h]

theorem catalog_eq_cases (results : List FetchResult) (resp : Response)
    (hres : catalog results = some resp) :
    ∃ P, addAll [] (okLists results) = some P ∧
      (((okLists results).length = 0 ∧
          resp = ⟨400, .errs ((errorTexts results).map mkListPackagesError)⟩) ∨
        ((okLists results).length ≠ 0 ∧
          ∃ rs, buildRepos [] P = some rs ∧ resp = ⟨200, .repos rs⟩)) := by
  unfold catalog at hres
  rw [catalogLoop_spec] at hres
  cases hA : addAll [] (okLists results) with
  | none => rw [hA] at hres; simp at hres
  | some P =>
    rw [hA] at hres
    simp only [Option.map_some'] at hres
    by_cases h0 : (okLists results).length = 0
    · rw [if_pos (by simpa using h0)] at hres
      refine ⟨P, rfl, Or.inl ⟨h0, ?_⟩⟩
      simp only [Option.some.injEq, List.nil_append] at hres
      exact hres.symm
    · rw [if_neg (by simpa using h0)] at hres
      cases hbr : buildRepos [] P with
      | none => rw [hbr] at hres; simp at hres
      | some rs =>
        rw [hbr] at hres
        simp only [Option.some.injEq] at hres
        exact ⟨P, rfl, Or.inr ⟨h0, rs, hbr, hres.symm⟩⟩

theorem okLists_ne_nil_of_ok (results : List FetchResult) (r : FetchResult)
    (hr : r ∈ results) (hok : isOkResult r = true) : okLists results ≠ [] := by
  cases r with
  | error e => simp [isOkResult] at hok
  | ok l =>
    intro h
    have hl : l ∈ okLists results := List.mem_filterMap.2 ⟨.ok l, hr, rfl⟩
    rw [h] at hl
    exact List.not_mem_nil l hl

theorem collectTags_spec (versions : List PackageVersion) :
    ∀ acc, collectTags acc versions =
      acc ++ ((versions.filterMap (fun v => v.metadata.bind PackageMetadata.container)).map
        ContainerMetadata.tags).flatten := by
  induction versions with
  | nil => intro acc; simp [collectTags]
  | cons v rest ih =>
    intro acc
    cases hm : v.metadata with
    | none => simp [collectTags, hm, List.filterMap_cons, ih]
    | some m =>
      cases hc : m.container with
      | none => simp [collectTags, hm, hc, List.filterMap_cons, ih]
      | some c => simp [collectTags, hm, hc, List.filterMap_cons, ih]

theorem addAll_keys (results : List FetchResult) (P : List Package)
    (hP : addAll [] (okLists results) = some P) :
    (∀ p ∈ P, hasKey p = true) ∧ (∀ p ∈ P, p ∈ okPackages results) := by
  constructor <;> intro p hp <;>
    rcases addAll_mem _ _ _ hP p hp with h | ⟨hm, hk⟩
  · exact absurd h (List.not_mem_nil p)
  · exact hk
  · exact absurd h (List.not_mem_nil p)
  · exact hm

/-- Claim C1 (amended): for every catalog request in which at least one
identity's ListPackages call succeeds — provided no successfully fetched
record has a present name together with an absent owner object (such a
record makes the handler panic, see C5) — Catalog responds with status
200 and a body whose repositories field is present (the possibly empty
`repos` list, never absent/null), and no accumulated error entry appears
in the body (the body is the `repos` constructor, which carries no
errors). -/
theorem claim_C1_catalog_partial_success (results : List FetchResult)
    (hsafe : ∀ p ∈ okPackages results, ownerSafe p = true)
    (hsucc : ∃ r ∈ results, isOkResult r = true) :
    ∃ rs, catalog results = some ⟨200, .repos rs⟩ := by
  rcases addAll_total (okLists results) [] hsafe with ⟨P, hP⟩
  have hkey := (addAll_keys results P hP).1
  rcases hsucc with ⟨r, hr, hok⟩
  have hlen : (okLists results).length ≠ 0 := fun h =>
    okLists_ne_nil_of_ok results r hr hok (List.length_eq_zero.1 h)
  refine ⟨P.map repoString, ?_⟩
  unfold catalog
  rw [catalogLoop_spec, hP]
  simp only [Option.map_some']
  rw [if_neg (by simpa using hlen), buildRepos_eq_map P [] hkey]
  simp

/-- Claim C1 counterexample: a request whose single identity fetch
succeeds, returning one record with a present name and an absent owner
object; the handler panics (`none`): it does not respond with status
200 (or at all), refuting the claim as stated. -/
theorem claim_C1_counterexample :
    isOkResult (Except.ok [({ name := some "x", owner := none } : Package)]) = true ∧
      catalog [Except.ok [({ name := some "x", owner := none } : Package)]] = none := by
  decide

/-- Claim C1 witness: the amended theorem applied to one failed and one
successful identity. -/
theorem claim_C1_witness :
    ∃ rs, catalog [Except.error "boom",
      Except.ok [({ name := some "x", owner := some { login := some "u" } } : Package)]] =
        some ⟨200, .repos rs⟩ :=
  claim_C1_catalog_partial_success _ (by decide) (by decide)

/-- Claim C2: for every catalog request in which every identity's
ListPackages call fails, Catalog responds with status 400 and the
ErrorEnvelope containing, in identity order, one entry per failed
identity with code UNKNOWN and message "ListPackages: <error-text>". -/
theorem claim_C2_catalog_total_failure (config : String) (fetch : String → FetchResult)
    (h : ∀ u ∈ gitHubUsers config, isOkResult (fetch u) = false) :
    catalogHandler config fetch =
      some ⟨400, .errs ((gitHubUsers config).map
        (fun u => ⟨ERROR_UNKNOWN, "ListPackages: " ++ errText (fetch u)⟩))⟩ := by
  have hall : ∀ r ∈ (gitHubUsers config).map fetch, isOkResult r = false := by
    intro r hr
    rcases List.mem_map.1 hr with ⟨u, hu, rfl⟩
    exact h u hu
  rcases errorTexts_all_failed _ hall with ⟨h1, h2⟩
  unfold catalogHandler catalog
  rw [catalogLoop_spec, h1, h2]
  simp [addAll, List.map_map, Function.comp, mkListPackagesError]

/-- Claim C2 witness: the theorem applied to the configuration "a" with
both identity fetches failing with message "boom". -/
theorem claim_C2_witness :
    catalogHandler "a" (fun _ => Except.error "boom") =
      some ⟨400, .errs [⟨"UNKNOWN", "ListPackages: boom"⟩,
        ⟨"UNKNOWN", "ListPackages: boom"⟩]⟩ :=
  (claim_C2_catalog_total_failure "a" (fun _ => Except.error "boom") (by decide)).trans
    (by decide)

/-- Claim C3: the identity sequence is [""] for the empty configuration
string, and otherwise [""] followed by the comma-split parts of the
configuration string in declaration order (duplicates preserved,
whitespace untrimmed — `splitCommaS` keeps every part verbatim). -/
theorem claim_C3_identity_sequence (config : String) :
    gitHubUsers config = if config = "" then [""] else "" :: splitCommaS config := by
  by_cases h : config = ""
  · subst h
    decide
  · simp [gitHubUsers, h]

/-- Claim C4: for every tags/list request whose version listing succeeds,
the response is 200 with name taken verbatim from the request path as
owner ++ "/" ++ name, and tags the concatenation, in origin version
order, of the container tag lists of exactly those versions carrying
both `metadata` and `metadata.container`, orders and duplicates
preserved. -/
theorem claim_C4_tags_translation (owner pname : String) (versions : List PackageVersion) :
    tagsList owner pname (.ok versions) =
      ⟨200, .tags (owner ++ "/" ++ pname)
        (((versions.filterMap (fun v => v.metadata.bind PackageMetadata.container)).map
          ContainerMetadata.tags).flatten)⟩ := by
  show (⟨200, .tags (owner ++ "/" ++ pname) (collectTags [] versions)⟩ : TagsResponse) = _
  rw [collectTags_spec versions []]
  rfl

/-- Claim C5: evaluation at the failing input. One identity succeeds,
returning a single record with a present name and an absent owner
object: the Go handler dereferences `tempPack.Owner.Login` without a nil
check on `Owner` and panics (modelled by `none`), instead of skipping
the malformed record as the spec requires. -/
theorem claim_C5_panic_on_missing_owner :
    catalog [Except.ok [({ name := some "y", owner := none } : Package)]] = none := by
  rfl

/-- Claim C6 (amended): for every catalog response with status 200 —
provided every record delivered by a successful fetch has, when present,
a non-empty slash-free name and a non-empty slash-free owner login —
the body is a repositories list in which every string contains exactly
one "/" with non-empty parts before and after it. The proviso is forced
by the counterexample: the code concatenates the fields verbatim, so an
empty or slash-carrying field breaks the invariant. -/
theorem claim_C6_entries_wellformed (results : List FetchResult) (resp : Response)
    (hclean : ∀ p ∈ okPackages results, cleanName p = true ∧ cleanLogin p = true)
    (hres : catalog results = some resp) (hst : resp.status = 200) :
    ∃ rs, resp.body = .repos rs ∧ ∀ s ∈ rs, goodRepoString s = true := by
  rcases catalog_eq_cases results resp hres with ⟨P, hP, hcase | hcase⟩
  · rcases hcase with ⟨_, rfl⟩
    simp at hst
  · rcases hcase with ⟨_, rs, hbr, rfl⟩
    refine ⟨rs, rfl, ?_⟩
    rcases addAll_keys results P hP with ⟨hkey, hmem⟩
    rw [buildRepos_eq_map P [] hkey] at hbr
    simp only [List.nil_append, Option.some.injEq] at hbr
    subst hbr
    intro s hs
    rcases List.mem_map.1 hs with ⟨p, hp, rfl⟩
    exact repoString_good p (hkey p hp) (hclean p (hmem p hp)).1 (hclean p (hmem p hp)).2

/-- Claim C6 counterexample: a successful fetch returns a record with an
empty (but present) owner login; the 200 response contains the string
"/x", whose part before the "/" is empty, refuting the claim as
stated. -/
theorem claim_C6_counterexample :
    catalog [Except.ok [({ name := some "x", owner := some { login := some "" } } : Package)]] =
      some ⟨200, .repos ["/x"]⟩ ∧ goodRepoString "/x" = false := by
  decide

/-- Claim C6 witness: the amended theorem applied to a single well-formed
record. -/
theorem claim_C6_witness :
    ∃ rs, (Response.mk 200 (.repos ["u1/alpha"])).body = .repos rs ∧
      ∀ s ∈ rs, goodRepoString s = true :=
  claim_C6_entries_wellformed
    [Except.ok [({ name := some "alpha", owner := some { login := some "u1" } } : Package)]]
    ⟨200, .repos ["u1/alpha"]⟩ (by decide) (by decide) rfl

/-- Claim C7 (amended): for every catalog response whose body is a
repositories list, that list is the image of a stored-record list whose
records all carry both key fields and whose (login, name) keys are
pairwise distinct under exact string equality on both components — the
catalog is unconditionally free of (namespace, name) duplicates — and,
provided no stored owner login contains "/", no two strings of the
repositories array are byte-equal. The proviso is forced by the
counterexample: distinct stored pairs can concatenate to byte-equal
strings when a stored login contains "/". -/
theorem claim_C7_no_duplicates (results : List FetchResult) (resp : Response)
    (hres : catalog results = some resp) :
    ∀ rs, resp.body = .repos rs →
      ∃ P : List Package, rs = P.map repoString ∧ (∀ p ∈ P, hasKey p = true) ∧
        distinctKeys P ∧ ((∀ p ∈ P, slashFreeLogin p = true) → rs.Nodup) := by
  intro rs hbody
  rcases catalog_eq_cases results resp hres with ⟨P, hP, hcase | hcase⟩
  · rcases hcase with ⟨_, rfl⟩
    simp at hbody
  · rcases hcase with ⟨_, rs', hbr, rfl⟩
    simp only [CatalogBody.repos.injEq] at hbody
    subst hbody
    rcases addAll_keys results P hP with ⟨hkey, _⟩
    rw [buildRepos_eq_map P [] hkey] at hbr
    simp only [List.nil_append, Option.some.injEq] at hbr
    subst hbr
    have hdist : distinctKeys P := addAll_distinct _ _ _ hP List.Pairwise.nil
    exact ⟨P, rfl, hkey, hdist, fun hsl => map_repoString_nodup P hkey hsl hdist⟩

/-- Claim C7 counterexample: two records with distinct (login, name)
pairs — ("a/b", "c") and ("a", "b/c") — pass the dedup scan yet both
concatenate to "a/b/c": the 200 response carries two byte-equal
repository strings, refuting the claim as stated. -/
theorem claim_C7_counterexample :
    catalog [Except.ok [({ name := some "c", owner := some { login := some "a/b" } } : Package),
        ({ name := some "b/c", owner := some { login := some "a" } } : Package)]] =
      some ⟨200, .repos ["a/b/c", "a/b/c"]⟩ ∧
      ¬ (["a/b/c", "a/b/c"] : List String).Nodup := by
  constructor
  · decide
  · decide

/-- Claim C7 witness: the amended theorem applied to two distinct
well-formed records. -/
theorem claim_C7_witness :
    ∃ P : List Package, (["u1/alpha", "u1/beta"] : List String) = P.map repoString ∧
      (∀ p ∈ P, hasKey p = true) ∧ distinctKeys P ∧
      ((∀ p ∈ P, slashFreeLogin p = true) →
        (["u1/alpha", "u1/beta"] : List String).Nodup) :=
  claim_C7_no_duplicates
    [Except.ok [({ name := some "alpha", owner := some { login := some "u1" } } : Package),
      ({ name := some "beta", owner := some { login := some "u1" } } : Package)]]
    ⟨200, .repos ["u1/alpha", "u1/beta"]⟩ (by decide)
    ["u1/alpha", "u1/beta"] rfl

/-- Claim C8 (amended): a request whose path matches a registered
pattern but whose method is not GET is answered by the router's
MethodNotAllowedHandler (HTTP 405) — it is not forwarded to the
UpstreamProxy; only a request whose path matches no registered pattern
falls through to the UpstreamProxy. -/
theorem claim_C8_method_mismatch (method path : String) (hm : method ≠ "GET") :
    (∀ pat, matchPath path = some pat → route method path = .methodNotAllowed) ∧
      (matchPath path = none → route method path = .upstream) := by
  constructor
  · intro pat hpat
    unfold route
    rw [hpat]
    cases pat <;> simp [hm]
  · intro hnone
    unfold route
    rw [hnone]

/-- Claim C8 counterexample: a POST to /v2/_catalog — a matched path
with an unmatched method — dispatches to the MethodNotAllowedHandler,
not to the UpstreamProxy, refuting the claim as stated. -/
theorem claim_C8_counterexample :
    route "POST" "/v2/_catalog" = Handler.methodNotAllowed ∧
      route "POST" "/v2/_catalog" ≠ Handler.upstream := by
  decide

/-- Claim C8 witness: the amended theorem applied to a POST on the
catalog path. -/
theorem claim_C8_witness :
    (∀ pat, matchPath "/v2/_catalog" = some pat →
        route "POST" "/v2/_catalog" = .methodNotAllowed) ∧
      (matchPath "/v2/_catalog" = none → route "POST" "/v2/_catalog" = .upstream) :=
  claim_C8_method_mismatch "POST" "/v2/_catalog" (by decide)

/-- Claim C9: a failed ListPackages call leaves the accumulated package
list and the success counter unchanged, appending only an error entry;
consequently the packages accumulated by the fan-out loop — from which
the repositories array is built — are exactly those accumulated from
the successful fetches alone, in their order. -/
theorem claim_C9_failure_isolation (s : CatalogState) (e : String)
    (results : List FetchResult) :
    catalogStep s (.error e) =
      some ⟨s.successes, s.packages, s.errors ++ [mkListPackagesError e]⟩ ∧
      (catalogLoop s results).map CatalogState.packages =
        (catalogLoop s (results.filter isOkResult)).map CatalogState.packages := by
  constructor
  · rfl
  · obtain ⟨k, P, E⟩ := s
    rw [catalogLoop_spec, catalogLoop_spec, okLists_filter]
    cases h : addAll P (okLists results) <;> simp [h]

/-- Claim C10: the identity sequence is non-empty for every
configuration string (so the fan-out always attempts at least one
fetch), and every 400 catalog response carries a non-empty errors
array. -/
theorem claim_C10_badRequest_nonempty (config : String) (fetch : String → FetchResult)
    (resp : Response) (hres : catalogHandler config fetch = some resp)
    (hst : resp.status = 400) :
    gitHubUsers config ≠ [] ∧ ∃ es, resp.body = .errs es ∧ es ≠ [] := by
  have husers : gitHubUsers config ≠ [] := by
    by_cases h : config = ""
    · subst h; decide
    · simp [gitHubUsers, h]
  refine ⟨husers, ?_⟩
  rcases catalog_eq_cases _ resp hres with ⟨P, hP, hcase | hcase⟩
  · rcases hcase with ⟨hlen, rfl⟩
    refine ⟨_, rfl, ?_⟩
    have h1 : okLists ((gitHubUsers config).map fetch) = [] := List.length_eq_zero.1 hlen
    have h2 := errorTexts_of_no_ok _ h1
    intro hnil
    rw [List.map_eq_nil_iff] at hnil
    rw [hnil] at h2
    simp only [List.length_nil, List.length_map] at h2
    exact husers (List.length_eq_zero.1 h2.symm)
  · rcases hcase with ⟨_, rs, _, rfl⟩
    simp at hst

/-- Claim C10 witness: the theorem applied to the empty configuration
with the single identity fetch failing. -/
theorem claim_C10_witness :
    gitHubUsers "" ≠ [] ∧
      ∃ es, (Response.mk 400 (.errs [⟨"UNKNOWN", "ListPackages: boom"⟩])).body = .errs es ∧
        es ≠ [] :=
  claim_C10_badRequest_nonempty "" (fun _ => Except.error "boom")
    ⟨400, .errs [⟨"UNKNOWN", "ListPackages: boom"⟩]⟩ (by decide) rfl
end ContainerRegistryProxy
